import Mathlib

/-!
Shallow embedding of the PureBasic indentation formatter from
`packages/pb-lang-support/src/server/providers/formatting-provider.ts`.

Lines are modelled as `List Char`; a document text is a `List Char` that is
split on newline characters exactly as `text.split('\n')` does.  JavaScript
numbers holding indentation levels are modelled as `Int` (so that the
non-negativity of the clamping arithmetic is a real statement), and
`Math.max(0, x)` is written `mx0 x`.
-/

/-- The single-quote character (code point 39). -/
def sqChar : Char := Char.ofNat 39

/-- JavaScript whitespace as far as the formatter's inputs are concerned
(the ASCII whitespace characters recognised by `String.prototype.trim`). -/
def isWS (c : Char) : Bool :=
  c = ' ' || c = '\t' || c = '\n' || c = '\r' || c = '\x0b' || c = '\x0c'

/-- `s.trimStart()` on a line. -/
def trimLeft (l : List Char) : List Char := l.dropWhile isWS

/-- `s.trim()` on a line: whitespace removed from both ends. -/
def trim (l : List Char) : List Char :=
  ((l.dropWhile isWS).reverse.dropWhile isWS).reverse

/-- `text.split('\n')`. -/
def splitLines : List Char → List (List Char)
  | [] => [[]]
  | c :: cs =>
    if c = '\n' then [] :: splitLines cs
    else
      match splitLines cs with
      | [] => [[c]]
      | l :: ls => (c :: l) :: ls

/-- `lines.join('\n')`. -/
def joinLines : List (List Char) → List Char
  | [] => []
  | l :: [] => l
  | l :: l2 :: ls => l ++ '\n' :: joinLines (l2 :: ls)

/-- Character loop of `stripStringsAndComments`, carrying the `inDq`/`inSq`
quote flags.  A `;` outside both kinds of string ends the line (comment);
quote characters toggle the flags and are skipped; characters inside an open
string are skipped. -/
def stripAux : List Char → Bool → Bool → List Char
  | [], _, _ => []
  | c :: cs, inDq, inSq =>
    if !inDq && !inSq && c = ';' then []
    else if !inSq && c = '"' then stripAux cs (!inDq) inSq
    else if !inDq && c = sqChar then stripAux cs inDq (!inSq)
    else if !inDq && !inSq then c :: stripAux cs inDq inSq
    else stripAux cs inDq inSq

/-- `stripStringsAndComments(line)` from the source. -/
def stripStringsAndComments (line : List Char) : List Char :=
  stripAux line false false

/-- The quote-scanner state left behind by `stripStringsAndComments` after a
prefix: `none` if a comment marker ended the scan, otherwise the final
`(inDq, inSq)` flags. -/
def stripSt : List Char → Bool → Bool → Option (Bool × Bool)
  | [], d, s => some (d, s)
  | c :: cs, d, s =>
    if !d && !s && c = ';' then none
    else if !s && c = '"' then stripSt cs (!d) s
    else if !d && c = sqChar then stripSt cs d (!s)
    else stripSt cs d s

/-- Word characters for the JavaScript regex `\b` boundary. -/
def isWordChar (c : Char) : Bool := c.isAlpha || c.isDigit || c = '_'

/-- Lower-casing used to model the `i` regex flag. -/
def lw (l : List Char) : List Char := l.map Char.toLower

/-- `\b` holds just after position `n` of `l`: end of line or a non-word
character. -/
def boundaryAt (l : List Char) (n : Nat) : Bool :=
  match l.drop n with
  | [] => true
  | c :: _ => !isWordChar c

/-- The keyword `k` occurs at the head of `l` followed by a `\b` boundary. -/
def kwHere (k l : List Char) : Bool :=
  (l.take k.length == k) && boundaryAt l k.length

/-- Model of `/^Kw\b/i.test(l)`: `k` is given lower-case. -/
def startsKw (k : String) (l : List Char) : Bool := kwHere k.toList (lw l)

/-- Scan for `\bKw\b` anywhere, tracking whether the previous character was a
word character (for the left `\b`). -/
def containsKwAux (k : List Char) : List Char → Bool → Bool
  | [], _ => false
  | c :: cs, prevW =>
    (!prevW && kwHere k (c :: cs)) || containsKwAux k cs (isWordChar c)

/-- Model of `/\bKw\b/i.test(l)`: `k` is given lower-case. -/
def containsKw (k : String) (l : List Char) : Bool :=
  containsKwAux k.toList (lw l) false

/-- `isClosing` keyword alternatives in `formatPureBasicCode`. -/
def closingKws : List String :=
  ["endprocedure", "endmodule", "endstructure", "endif", "next", "wend",
   "until", "forever", "endwith", "enddeclaremodule", "endinterface",
   "endenumeration", "endmacro", "enddatasection", "compilerendif",
   "compilerendselect"]

/-- `isOpening` keyword alternatives in `formatPureBasicCode`
(`Procedure(?:C|DLL|CDLL)?` expanded to its four words). -/
def openingKws : List String :=
  ["procedure", "procedurec", "proceduredll", "procedurecdll", "module",
   "structure", "if", "for", "foreach", "while", "repeat", "with",
   "declaremodule", "interface", "enumeration", "macro", "datasection",
   "compilerif", "compilerselect"]

/-- `isMiddle` keyword alternatives. -/
def middleKws : List String := ["else", "elseif", "compilerelse", "compilerelseif"]

/-- `isCase` keyword alternatives. -/
def caseKws : List String := ["case", "default"]

def isClosing (l : List Char) : Bool := closingKws.any (fun k => startsKw k l)

def isOpening (l : List Char) : Bool := openingKws.any (fun k => startsKw k l)

def isEndSelect (l : List Char) : Bool := startsKw ("endselect") l

def isSelect (l : List Char) : Bool := startsKw ("select") l

def isCase (l : List Char) : Bool := caseKws.any (fun k => startsKw k l)

def isMiddle (l : List Char) : Bool := middleKws.any (fun k => startsKw k l)

/-- `hasInlineNetZero` from `formatPureBasicCode` (lines 113-133). -/
def hasInlineNetZero (code : List Char) : Bool :=
  (containsKw ("if") code && containsKw ("endif") code) ||
  ((containsKw ("for") code || containsKw ("foreach") code) && containsKw ("next") code) ||
  (containsKw ("while") code && containsKw ("wend") code) ||
  (containsKw ("repeat") code && (containsKw ("until") code || containsKw ("forever") code)) ||
  (containsKw ("select") code && containsKw ("endselect") code) ||
  (containsKw ("with") code && containsKw ("endwith") code) ||
  ((containsKw ("procedure") code || containsKw ("procedurec") code ||
      containsKw ("proceduredll") code || containsKw ("procedurecdll") code) &&
    containsKw ("endprocedure") code) ||
  (containsKw ("module") code && containsKw ("endmodule") code) ||
  (containsKw ("declaremodule") code && containsKw ("enddeclaremodule") code) ||
  (containsKw ("structure") code && containsKw ("endstructure") code) ||
  (containsKw ("interface") code && containsKw ("endinterface") code) ||
  (containsKw ("enumeration") code && containsKw ("endenumeration") code) ||
  (containsKw ("macro") code && containsKw ("endmacro") code) ||
  (containsKw ("datasection") code && containsKw ("enddatasection") code) ||
  (containsKw ("compilerif") code && containsKw ("compilerendif") code) ||
  (containsKw ("compilerselect") code && containsKw ("compilerendselect") code)

/-- `FormattingOptions` (tab size is the LSP `uinteger`). -/
structure FormattingOptions where
  tabSize : Nat
  insertSpaces : Bool
  spaceAfterKeywords : Bool
  spaceAroundOperators : Bool
  formatProcedureBody : Bool
deriving DecidableEq, Repr

/-- `DEFAULT_OPTIONS` from the source. -/
def DEFAULT_OPTIONS : FormattingOptions :=
  ⟨4, true, false, false, true⟩

/-- `FormatterState` from the source (`indentLevel`, `inSelect`,
`selectBaseIndent`, `caseActive`). -/
structure FormatterState where
  indentLevel : Int
  inSelect : Bool
  selectBaseIndent : Int
  caseActive : Bool
deriving DecidableEq, Repr

/-- The `?? 0 / ?? false` defaults used when no initial state is supplied. -/
def initialState : FormatterState := ⟨0, false, 0, false⟩

/-- `Math.max(0, x)`. -/
def mx0 (x : Int) : Int := max 0 x

/-- `createIndent(level, options)`; every call site passes a clamped
non-negative level. -/
def createIndent (level : Nat) (options : FormattingOptions) : List Char :=
  let indentChar := if options.insertSpaces then ' ' else '\t'
  let indentSize := if options.insertSpaces then options.tabSize else 1
  List.replicate (level * indentSize) indentChar

/-- Lines 156-181 of the loop body: the `EndSelect` / `Select` / `Case` /
closing chain, producing the provisional `lineIndent` and the state after
those updates. -/
def chainStep (s : FormatterState) (code : List Char) (inlineAny : Bool) :
    Int × FormatterState :=
  if !inlineAny && isEndSelect code then
    if s.inSelect then
      (mx0 s.selectBaseIndent,
        { s with indentLevel := s.selectBaseIndent, inSelect := false,
                 caseActive := false })
    else
      (mx0 (s.indentLevel - 1), { s with indentLevel := mx0 (s.indentLevel - 1) })
  else if !inlineAny && isSelect code then
    (s.indentLevel, s)
  else if !inlineAny && s.inSelect && isCase code then
    (s.selectBaseIndent + 1, s)
  else if !inlineAny && isClosing code then
    (mx0 (s.indentLevel - 1), { s with indentLevel := mx0 (s.indentLevel - 1) })
  else
    (s.indentLevel, s)

/-- Lines 195-218 of the loop body: post-emission state updates (`Select`
entry, `Case` selection, opener increment, middle-statement restore, and the
forward-pinning correction inside a `Select` before its first `Case`). -/
def postStep (code : List Char) (inlineIf inlineAny isMid : Bool) (li : Int)
    (s : FormatterState) : FormatterState :=
  let s3 :=
    if inlineAny then s
    else if isSelect code then
      { s with inSelect := true, selectBaseIndent := li, caseActive := false,
               indentLevel := li + 1 }
    else if !inlineIf && s.inSelect && isCase code then
      { s with caseActive := true, indentLevel := s.selectBaseIndent + 2 }
    else if !inlineAny && isOpening code then
      { s with indentLevel := s.indentLevel + 1 }
    else s
  let s4 :=
    if !inlineAny && isMid then { s3 with indentLevel := s3.indentLevel + 1 }
    else s3
  if !inlineAny && s4.inSelect && !s4.caseActive && !isEndSelect code &&
      !isCase code && !isSelect code then
    { s4 with indentLevel := max s4.indentLevel (s4.selectBaseIndent + 1) }
  else s4

/-- The loop body for a non-blank, non-comment line, applied to the sanitized
`code`: emitted (clamped) level and next state. -/
def processCode (s : FormatterState) (code : List Char) :
    Option Int × FormatterState :=
  let inlineIf := startsKw ("if") code && containsKw ("endif") code
  let inlineAny := hasInlineNetZero code
  let c1 := chainStep s code inlineAny
  let isMid := !inlineAny && !isSelect code && !isEndSelect code && isMiddle code
  let li2 := if isMid then mx0 (c1.1 - 1) else c1.1
  let s2 := if isMid then { c1.2 with indentLevel := li2 } else c1.2
  (some (mx0 li2), postStep code inlineIf inlineAny isMid li2 s2)

/-- One iteration of the `formatPureBasicCode` loop: the emitted indent level
(`none` for a blank line, otherwise the clamped level passed to
`createIndent`) and the state for the next line. -/
def processLineCore (s : FormatterState) (raw : List Char) :
    Option Int × FormatterState :=
  let trimmed := trim raw
  if trimmed = [] then (none, s)
  else if trimmed.head? = some ';' then (some (mx0 s.indentLevel), s)
  else processCode s (trim (stripStringsAndComments raw))

/-- The line pushed onto `out` for one input line. -/
def renderLine (opts : FormattingOptions) (lvl : Option Int) (raw : List Char) :
    List Char :=
  match lvl with
  | none => []
  | some v => createIndent v.toNat opts ++ trim raw

/-- One loop iteration returning the emitted line and the next state. -/
def processLine (opts : FormattingOptions) (s : FormatterState)
    (raw : List Char) : List Char × FormatterState :=
  (renderLine opts (processLineCore s raw).1 raw, (processLineCore s raw).2)

/-- The `formatPureBasicCode` loop over a list of lines. -/
def formatLinesFrom (opts : FormattingOptions) :
    FormatterState → List (List Char) → List (List Char)
  | _, [] => []
  | s, raw :: rest =>
    (processLine opts s raw).1 ::
      formatLinesFrom opts (processLine opts s raw).2 rest

/-- The formatter state after consuming a list of lines. -/
def stateAfter (s : FormatterState) (ls : List (List Char)) : FormatterState :=
  ls.foldl (fun s raw => (processLineCore s raw).2) s

/-- `formatPureBasicCode(text, options, initialState)`. -/
def formatPureBasicCode (text : List Char) (opts : FormattingOptions)
    (init : FormatterState) : List Char :=
  joinLines (formatLinesFrom opts init (splitLines text))

/-- `isClosing` inside `computeInitialFormatterState` — note the shorter list
(no `EndMacro`, `EndDataSection`, `CompilerEndIf`, `CompilerEndSelect`). -/
def closingKwsR : List String :=
  ["endprocedure", "endmodule", "endstructure", "endif", "next", "wend",
   "until", "forever", "endwith", "enddeclaremodule", "endinterface",
   "endenumeration"]

/-- `isOpening` inside `computeInitialFormatterState` — note the shorter list
(no `Macro`, `DataSection`, `CompilerIf`, `CompilerSelect`). -/
def openingKwsR : List String :=
  ["procedure", "procedurec", "proceduredll", "procedurecdll", "module",
   "structure", "if", "for", "foreach", "while", "repeat", "with",
   "declaremodule", "interface", "enumeration"]

def isClosingR (l : List Char) : Bool := closingKwsR.any (fun k => startsKw k l)

def isOpeningR (l : List Char) : Bool := openingKwsR.any (fun k => startsKw k l)

/-- `hasInlineNetZero` inside `computeInitialFormatterState` — stops after the
`Enumeration` family. -/
def hasInlineNetZeroR (code : List Char) : Bool :=
  (containsKw ("if") code && containsKw ("endif") code) ||
  ((containsKw ("for") code || containsKw ("foreach") code) && containsKw ("next") code) ||
  (containsKw ("while") code && containsKw ("wend") code) ||
  (containsKw ("repeat") code && (containsKw ("until") code || containsKw ("forever") code)) ||
  (containsKw ("select") code && containsKw ("endselect") code) ||
  (containsKw ("with") code && containsKw ("endwith") code) ||
  ((containsKw ("procedure") code || containsKw ("procedurec") code ||
      containsKw ("proceduredll") code || containsKw ("procedurecdll") code) &&
    containsKw ("endprocedure") code) ||
  (containsKw ("module") code && containsKw ("endmodule") code) ||
  (containsKw ("declaremodule") code && containsKw ("enddeclaremodule") code) ||
  (containsKw ("structure") code && containsKw ("endstructure") code) ||
  (containsKw ("interface") code && containsKw ("endinterface") code) ||
  (containsKw ("enumeration") code && containsKw ("endenumeration") code)

/-- One iteration of the `computeInitialFormatterState` loop. -/
def reconStep (s : FormatterState) (raw : List Char) : FormatterState :=
  let trimmed := trim raw
  let code := trim (stripStringsAndComments raw)
  if trimmed = [] ∨ trimmed.head? = some ';' then s
  else
    let inlineAny := hasInlineNetZeroR code
    let s1 :=
      if !inlineAny && isEndSelect code then
        if s.inSelect then
          { s with indentLevel := mx0 s.selectBaseIndent, inSelect := false,
                   caseActive := false }
        else
          { s with indentLevel := mx0 (s.indentLevel - 1) }
      else if !inlineAny && isSelect code then
        { s with selectBaseIndent := s.indentLevel, inSelect := true,
                 caseActive := false, indentLevel := s.indentLevel + 1 }
      else if !inlineAny && isClosingR code then
        { s with indentLevel := mx0 (s.indentLevel - 1) }
      else s
    let s2 :=
      if inlineAny then s1
      else if isSelect code then s1
      else if !inlineAny && s1.inSelect && isCase code then
        { s1 with indentLevel := s1.selectBaseIndent + 2 }
      else if !inlineAny && isOpeningR code then
        { s1 with indentLevel := s1.indentLevel + 1 }
      else s1
    if !inlineAny && s2.inSelect && !s2.caseActive && !isEndSelect code &&
        !isCase code && !isSelect code then
      { s2 with indentLevel := max s2.indentLevel (s2.selectBaseIndent + 1) }
    else s2

/-- `computeInitialFormatterState(linesBefore)`. -/
def computeInitialFormatterState (linesBefore : List (List Char)) :
    FormatterState :=
  linesBefore.foldl reconStep ⟨0, false, 0, false⟩

/-- `handleDocumentRangeFormatting` at line granularity: the expanded range is
the whole lines `startLine..endLine`, the reconstructed state is computed from
the lines strictly before the range, and the range is then formatted from that
state. -/
def formatRangeLines (lines : List (List Char)) (startLine endLine : Nat)
    (opts : FormattingOptions) : List (List Char) :=
  formatLinesFrom opts (computeInitialFormatterState (lines.take startLine))
    ((lines.drop startLine).take (endLine + 1 - startLine))

/-- String-to-line helper for concrete documents. -/
def toL (s : String) : List Char := s.toList

/-- The indent level emitted for line `n` of the document `ls` during a full
run of the formatter loop (`0` when the line is blank or absent). -/
def emitLevelAt (ls : List (List Char)) (n : Nat) : Int :=
  ((processLineCore (stateAfter initialState (ls.take n)) (ls.getD n [])).1).getD 0

/-- A three-line document using a `Macro` block. -/
def macroDoc : List (List Char) :=
  [toL ("Macro m"), toL ("    x = 1"), toL ("EndMacro")]

/-- The Scenario C input of the specification. -/
def scenarioC : List (List Char) :=
  [toL ("Select a"), toL ("Case 1"), toL ("foo()"), toL ("Default"),
   toL ("bar()"), toL ("EndSelect")]

/-- Scenario C rendered at levels 0/1/2/1/2/0 with the default options. -/
def scenarioCOut : List (List Char) :=
  [toL ("Select a"), toL ("    Case 1"), toL ("        foo()"),
   toL ("    Default"), toL ("        bar()"), toL ("EndSelect")]

/-! ### Generic list helpers -/

theorem dropWhile_all_append {p : Char → Bool} {ws : List Char} (l : List Char)
    (h : ∀ c ∈ ws, p c = true) :
    List.dropWhile p (ws ++ l) = List.dropWhile p l := by
  induction ws with
  | nil => rfl
  | cons c t ih =>
    have hc : p c = true := h c (by simp)
    simp only [List.cons_append, List.dropWhile_cons, hc, if_pos]
    exact ih fun x hx => h x (by simp [hx])

theorem dropWhile_append_of_ne {p : Char → Bool} {a : List Char} (b : List Char)
    (h : List.dropWhile p a ≠ []) :
    List.dropWhile p (a ++ b) = List.dropWhile p a ++ b := by
  induction a with
  | nil => exact absurd rfl h
  | cons c t ih =>
    by_cases hc : p c = true
    · simp only [List.dropWhile_cons, hc, if_pos] at h ⊢
      simp only [List.cons_append, List.dropWhile_cons, hc, if_pos]
      exact ih h
    · have hc' : p c = false := by simpa using hc
      simp only [List.cons_append, List.dropWhile_cons, hc', Bool.false_eq_true,
        if_neg, List.cons_append]
      simp [List.dropWhile_cons, hc']

theorem head_dropWhile_false {p : Char → Bool} {l : List Char} {c : Char}
    (h : (List.dropWhile p l).head? = some c) : p c = false := by
  induction l with
  | nil => simp at h
  | cons a t ih =>
    by_cases ha : p a = true
    · simp only [List.dropWhile_cons, ha, if_pos] at h
      exact ih h
    · have ha' : p a = false := by simpa using ha
      rw [List.dropWhile_cons, ha'] at h
      simp only [Bool.false_eq_true, if_false, List.head?_cons,
        Option.some.injEq] at h
      exact h ▸ ha'

theorem dropWhile_eq_self_of_head {p : Char → Bool} {l : List Char}
    (h : ∀ c, l.head? = some c → p c = false) :
    List.dropWhile p l = l := by
  cases l with
  | nil => rfl
  | cons c t => simp [List.dropWhile_cons, h c rfl]

theorem mem_of_mem_dropWhile {p : Char → Bool} {l : List Char} {c : Char}
    (h : c ∈ List.dropWhile p l) : c ∈ l := by
  induction l with
  | nil => simpa using h
  | cons a t ih =>
    by_cases ha : p a = true
    · simp only [List.dropWhile_cons, ha, if_pos] at h
      exact List.mem_cons_of_mem _ (ih h)
    · have ha' : p a = false := by simpa using ha
      simp only [List.dropWhile_cons, ha', Bool.false_eq_true, if_neg] at h
      exact h

theorem mem_of_mem_takeWhile {p : Char → Bool} {l : List Char} {c : Char}
    (h : c ∈ List.takeWhile p l) : p c = true := by
  induction l with
  | nil => simpa using h
  | cons a t ih =>
    by_cases ha : p a = true
    · simp only [List.takeWhile_cons, ha, if_pos, List.mem_cons] at h
      rcases h with h | h
      · exact h ▸ ha
      · exact ih h
    · have ha' : p a = false := by simpa using ha
      simp [List.takeWhile_cons, ha'] at h

/-! ### `trim` lemmas -/

theorem trim_nil : trim [] = [] := rfl

theorem trim_eq_nil_iff {l : List Char} : trim l = [] ↔ ∀ c ∈ l, isWS c = true := by
  unfold trim
  constructor
  · intro h c hc
    have hv : List.dropWhile isWS (List.dropWhile isWS l).reverse = [] := by
      have := congrArg List.reverse h
      simpa using this
    rw [List.dropWhile_eq_nil_iff] at hv
    by_cases hu : c ∈ List.dropWhile isWS l
    · exact hv c (by simpa using hu)
    · have hsplit := List.takeWhile_append_dropWhile (p := isWS) (l := l)
      rw [← hsplit] at hc
      rcases List.mem_append.mp hc with h1 | h1
      · exact mem_of_mem_takeWhile h1
      · exact absurd h1 hu
  · intro h
    have : List.dropWhile isWS l = [] :=
      List.dropWhile_eq_nil_iff.mpr fun c hc => h c hc
    simp [this]

theorem mem_trim {l : List Char} {c : Char} (h : c ∈ trim l) : c ∈ l := by
  unfold trim at h
  rw [List.mem_reverse] at h
  have h1 := mem_of_mem_dropWhile h
  rw [List.mem_reverse] at h1
  exact mem_of_mem_dropWhile h1

theorem trim_ws_left {ws l : List Char} (h : ∀ c ∈ ws, isWS c = true) :
    trim (ws ++ l) = trim l := by
  unfold trim
  rw [dropWhile_all_append l h]

theorem trim_ws_right {ws : List Char} (l : List Char)
    (h : ∀ c ∈ ws, isWS c = true) :
    trim (l ++ ws) = trim l := by
  by_cases hl : List.dropWhile isWS l = []
  · have h1 : trim l = [] := by
      rw [trim_eq_nil_iff]
      exact fun c hc => by
        rw [List.dropWhile_eq_nil_iff] at hl
        exact hl c hc
    have h2 : trim (l ++ ws) = [] := by
      rw [trim_eq_nil_iff]
      intro c hc
      rcases List.mem_append.mp hc with h3 | h3
      · rw [List.dropWhile_eq_nil_iff] at hl
        exact hl c h3
      · exact h c h3
    rw [h1, h2]
  · unfold trim
    rw [dropWhile_append_of_ne ws hl, List.reverse_append,
      dropWhile_all_append _ (fun c hc => h c (by simpa using hc))]

theorem head?_trim {l : List Char} (h : trim l ≠ []) :
    (trim l).head? = (List.dropWhile isWS l).head? := by
  unfold trim at h ⊢
  cases hu : List.dropWhile isWS l with
  | nil => simp [hu] at h
  | cons c t =>
    have hc : isWS c = false := head_dropWhile_false (by rw [hu]; rfl)
    by_cases ht : List.dropWhile isWS t.reverse = []
    · have : List.dropWhile isWS (t.reverse ++ [c]) = [c] := by
        rw [dropWhile_all_append [c] (by
          intro x hx
          rw [List.dropWhile_eq_nil_iff] at ht
          exact ht x (by simpa using hx))]
        simp [List.dropWhile_cons, hc]
      simp [hu, List.reverse_cons, this]
    · have : List.dropWhile isWS (t.reverse ++ [c]) =
          List.dropWhile isWS t.reverse ++ [c] := dropWhile_append_of_ne [c] ht
      simp [hu, List.reverse_cons, this]

theorem head_trim_false {l : List Char} {c : Char}
    (h : (trim l).head? = some c) : isWS c = false := by
  have hne : trim l ≠ [] := by
    intro hnil
    rw [hnil] at h
    simp at h
  rw [head?_trim hne] at h
  exact head_dropWhile_false h

theorem trim_trim (l : List Char) : trim (trim l) = trim l := by
  by_cases h : trim l = []
  · rw [h]; rfl
  · have h1 : List.dropWhile isWS (trim l) = trim l := by
      apply dropWhile_eq_self_of_head
      intro c hc
      exact head_trim_false ((head?_trim h).symm ▸ (head?_trim h) ▸ hc)
    show ((List.dropWhile isWS (trim l)).reverse.dropWhile isWS).reverse = trim l
    rw [h1]
    have h2 : (trim l).reverse =
        List.dropWhile isWS (List.dropWhile isWS l).reverse := by
      unfold trim
      simp
    rw [h2, List.dropWhile_idempotent, ← h2]
    simp

theorem trim_decomp (l : List Char) :
    ∃ a b, l = a ++ trim l ++ b ∧ (∀ c ∈ a, isWS c = true) ∧
      (∀ c ∈ b, isWS c = true) := by
  refine ⟨List.takeWhile isWS l,
    (List.takeWhile isWS (List.dropWhile isWS l).reverse).reverse, ?_, ?_, ?_⟩
  · have h1 := List.takeWhile_append_dropWhile (p := isWS) (l := l)
    have h2 := congrArg List.reverse
      (List.takeWhile_append_dropWhile (p := isWS)
        (l := (List.dropWhile isWS l).reverse))
    rw [List.reverse_append, List.reverse_reverse] at h2
    conv_lhs => rw [← h1, ← h2]
    rw [← List.append_assoc]
    rfl
  · exact fun c hc => mem_of_mem_takeWhile hc
  · intro c hc
    rw [List.mem_reverse] at hc
    exact mem_of_mem_takeWhile hc

/-! ### `stripStringsAndComments` lemmas -/

theorem isWS_not_special {c : Char} (h : isWS c = true) :
    c ≠ ';' ∧ c ≠ '"' ∧ c ≠ sqChar := by
  simp only [isWS, Bool.or_eq_true, decide_eq_true_eq] at h
  rcases h with ((((h | h) | h) | h) | h) | h <;> subst h <;>
    exact ⟨by decide, by decide, by decide⟩

/-- Splitting the sanitizer scan at an arbitrary point: the output of the
whole line is the output of the prefix followed by — unless the prefix hit a
comment marker — the output of the suffix scanned from the prefix's final
quote state. -/
theorem stripAux_append (p x : List Char) : ∀ d s : Bool,
    stripAux (p ++ x) d s =
      stripAux p d s ++
        (match stripSt p d s with
          | none => []
          | some ds => stripAux x ds.1 ds.2) := by
  induction p with
  | nil => intro d s; simp [stripAux, stripSt]
  | cons c t ih =>
    intro d s
    cases h1 : (!d && !s && decide (c = ';')) with
    | true => simp [stripAux, stripSt, h1]
    | false =>
      cases h2 : (!s && decide (c = '"')) with
      | true => simp [stripAux, stripSt, h1, h2, ih]
      | false =>
        cases h3 : (!d && decide (c = sqChar)) with
        | true => simp [stripAux, stripSt, h1, h2, h3, ih]
        | false =>
          cases h4 : (!d && !s) with
          | true =>
            rw [Bool.and_eq_true] at h4
            have hc : ¬(c = ';') := by
              intro hcc
              rw [h4.1, h4.2, hcc] at h1
              simp at h1
            have hcq : ¬(c = '"') := by
              intro hcc
              rw [h4.2, hcc] at h2
              simp at h2
            have hcs : ¬(c = sqChar) := by
              intro hcc
              rw [h4.1, hcc] at h3
              simp at h3
            simp [stripAux, stripSt, h4.1, h4.2, hc, hcq, hcs, ih]
          | false => simp [stripAux, stripSt, h1, h2, h3, h4, ih]

/-- Whitespace never changes the sanitizer's quote state. -/
theorem stripSt_ws {ws : List Char} (h : ∀ c ∈ ws, isWS c = true) :
    ∀ d s : Bool, stripSt ws d s = some (d, s) := by
  induction ws with
  | nil => intro d s; rfl
  | cons c t ih =>
    intro d s
    obtain ⟨hc1, hc2, hc3⟩ := isWS_not_special (h c (by simp))
    simp [stripSt, hc1, hc2, hc3, ih fun x hx => h x (by simp [hx])]

/-- Outside a string, whitespace passes through the sanitizer unchanged. -/
theorem stripAux_ws_out {ws : List Char} (h : ∀ c ∈ ws, isWS c = true) :
    stripAux ws false false = ws := by
  induction ws with
  | nil => rfl
  | cons c t ih =>
    obtain ⟨hc1, hc2, hc3⟩ := isWS_not_special (h c (by simp))
    simp [stripAux, hc1, hc2, hc3, ih fun x hx => h x (by simp [hx])]

/-- Inside an open string, characters that are not quote characters are
dropped by the sanitizer. -/
theorem stripAux_in_string {r : List Char} (hq : ∀ c ∈ r, c ≠ '"' ∧ c ≠ sqChar) :
    ∀ d s : Bool, (d || s) = true → stripAux r d s = [] := by
  induction r with
  | nil => intro d s _; rfl
  | cons c t ih =>
    intro d s hds
    obtain ⟨hc2, hc3⟩ := hq c (by simp)
    have ih' := ih fun x hx => hq x (by simp [hx])
    cases d with
    | true => simp [stripAux, hc2, hc3, ih' true s (by simp)]
    | false =>
      have hs : s = true := by simpa using hds
      subst hs
      simp [stripAux, hc2, hc3, ih' false true (by simp)]

/-! ### Interaction of `trim` with the sanitizer -/

theorem code_blank {raw : List Char} (h : trim raw = []) :
    trim (stripStringsAndComments raw) = [] := by
  have hall : ∀ c ∈ raw, isWS c = true := trim_eq_nil_iff.mp h
  unfold stripStringsAndComments
  rw [stripAux_ws_out hall]
  exact h

theorem code_comment {raw : List Char} (h : (trim raw).head? = some ';') :
    trim (stripStringsAndComments raw) = [] := by
  have hne : trim raw ≠ [] := by
    intro h0
    rw [h0] at h
    simp at h
  have hdw : (List.dropWhile isWS raw).head? = some ';' := by
    rw [← head?_trim hne]
    exact h
  cases hu : List.dropWhile isWS raw with
  | nil => rw [hu] at hdw; simp at hdw
  | cons c t =>
    rw [hu] at hdw
    simp only [List.head?_cons, Option.some.injEq] at hdw
    subst hdw
    have hsplit := List.takeWhile_append_dropWhile (p := isWS) (l := raw)
    have hws : ∀ x ∈ List.takeWhile isWS raw, isWS x = true :=
      fun x hx => mem_of_mem_takeWhile hx
    unfold stripStringsAndComments
    conv_lhs => rw [← hsplit, hu]
    rw [stripAux_append _ _ false false, stripSt_ws hws, stripAux_ws_out hws]
    show trim (List.takeWhile isWS raw ++ stripAux (';' :: t) false false) = []
    have : stripAux (';' :: t) false false = [] := by simp [stripAux]
    rw [this, List.append_nil, trim_eq_nil_iff]
    exact hws

theorem code_trim (raw : List Char) :
    trim (stripStringsAndComments (trim raw)) = trim (stripStringsAndComments raw) := by
  obtain ⟨a, b, hdec, ha, hb⟩ := trim_decomp raw
  rw [List.append_assoc] at hdec
  unfold stripStringsAndComments
  conv_rhs => rw [hdec]
  rw [stripAux_append a (trim raw ++ b) false false, stripSt_ws ha,
    stripAux_ws_out ha]
  show _ = trim (a ++ stripAux (trim raw ++ b) false false)
  rw [trim_ws_left ha, stripAux_append (trim raw) b false false]
  rcases hst : stripSt (trim raw) false false with _ | ds
  · simp
  · rcases ds with ⟨d, s⟩
    show trim (stripAux (trim raw) false false) =
      trim (stripAux (trim raw) false false ++ stripAux b d s)
    by_cases hds : (d || s) = true
    · rw [stripAux_in_string (fun c hc => (isWS_not_special (hb c hc)).2) d s hds,
        List.append_nil]
    · have hd : d = false := by
        cases d
        · rfl
        · exact absurd (by simp) hds
      have hs : s = false := by
        cases s
        · rfl
        · exact absurd (by simp) hds
      subst hd
      subst hs
      rw [stripAux_ws_out hb, trim_ws_right _ hb]

theorem codeOf_reindent {ws : List Char} (raw : List Char)
    (hws : ∀ c ∈ ws, isWS c = true) :
    trim (stripStringsAndComments (ws ++ trim raw)) =
      trim (stripStringsAndComments raw) := by
  unfold stripStringsAndComments
  rw [stripAux_append ws (trim raw) false false, stripSt_ws hws,
    stripAux_ws_out hws]
  show trim (ws ++ stripAux (trim raw) false false) = _
  rw [trim_ws_left hws]
  exact code_trim raw

theorem createIndent_ws (n : Nat) (opts : FormattingOptions) :
    ∀ c ∈ createIndent n opts, isWS c = true := by
  intro c hc
  simp only [createIndent] at hc
  have hcc := List.eq_of_mem_replicate hc
  subst hcc
  cases h : opts.insertSpaces <;> simp [h, isWS]

/-! ### Per-line lemmas for the formatter loop -/

theorem createIndent_no_newline (n : Nat) (opts : FormattingOptions) :
    ∀ c ∈ createIndent n opts, c ≠ '\n' := by
  intro c hc
  simp only [createIndent] at hc
  have hcc := List.eq_of_mem_replicate hc
  subst hcc
  cases h : opts.insertSpaces <;> simp [h]

theorem processLineCore_congr {raw1 raw2 : List Char} (s : FormatterState)
    (h1 : trim raw1 = trim raw2)
    (h2 : trim (stripStringsAndComments raw1) =
      trim (stripStringsAndComments raw2)) :
    processLineCore s raw1 = processLineCore s raw2 := by
  unfold processLineCore
  rw [h1, h2]

theorem processCode_fst_ne_none (s : FormatterState) (code : List Char) :
    (processCode s code).1 ≠ none := by
  simp [processCode]

theorem core_fst_none_iff (s : FormatterState) (raw : List Char) :
    (processLineCore s raw).1 = none ↔ trim raw = [] := by
  by_cases h0 : trim raw = []
  · simp [processLineCore, h0]
  · by_cases h1 : (trim raw).head? = some ';'
    · simp [processLineCore, h0, h1]
    · simp [processLineCore, h0, h1]
      exact processCode_fst_ne_none s (trim (stripStringsAndComments raw))

theorem processLine_out_trim (opts : FormattingOptions) (s : FormatterState)
    (raw : List Char) :
    trim ((processLine opts s raw).1) = trim raw := by
  rcases hv : (processLineCore s raw).1 with _ | v
  · have h0 : trim raw = [] := (core_fst_none_iff s raw).mp hv
    simp [processLine, renderLine, hv, h0, trim_nil]
  · show trim (renderLine opts (processLineCore s raw).1 raw) = trim raw
    rw [hv]
    show trim (createIndent v.toNat opts ++ trim raw) = trim raw
    rw [trim_ws_left (createIndent_ws v.toNat opts), trim_trim]

theorem processLine_out_code (opts : FormattingOptions) (s : FormatterState)
    (raw : List Char) :
    trim (stripStringsAndComments ((processLine opts s raw).1)) =
      trim (stripStringsAndComments raw) := by
  rcases hv : (processLineCore s raw).1 with _ | v
  · have h0 : trim raw = [] := (core_fst_none_iff s raw).mp hv
    have : (processLine opts s raw).1 = [] := by
      simp [processLine, renderLine, hv]
    rw [this, code_blank h0]
    rfl
  · have : (processLine opts s raw).1 = createIndent v.toNat opts ++ trim raw := by
      simp [processLine, renderLine, hv]
    rw [this]
    exact codeOf_reindent raw (createIndent_ws v.toNat opts)

theorem processLine_idem (opts : FormattingOptions) (s : FormatterState)
    (raw : List Char) :
    processLine opts s ((processLine opts s raw).1) = processLine opts s raw := by
  have ht := processLine_out_trim opts s raw
  have hcode := processLine_out_code opts s raw
  have hcore := processLineCore_congr s ht hcode
  show (renderLine opts (processLineCore s ((processLine opts s raw).1)).1
      ((processLine opts s raw).1),
    (processLineCore s ((processLine opts s raw).1)).2) = _
  rw [hcore]
  show (renderLine opts (processLineCore s raw).1 ((processLine opts s raw).1),
    (processLineCore s raw).2) = (renderLine opts (processLineCore s raw).1 raw,
    (processLineCore s raw).2)
  rcases hv : (processLineCore s raw).1 with _ | v
  · rfl
  · show (createIndent v.toNat opts ++ trim ((processLine opts s raw).1), _) =
      (createIndent v.toNat opts ++ trim raw, _)
    rw [ht]

theorem formatLinesFrom_idem (opts : FormattingOptions) (ls : List (List Char)) :
    ∀ s : FormatterState,
      formatLinesFrom opts s (formatLinesFrom opts s ls) =
        formatLinesFrom opts s ls := by
  induction ls with
  | nil => intro s; rfl
  | cons raw rest ih =>
    intro s
    simp only [formatLinesFrom]
    rw [processLine_idem]
    exact congrArg _ (ih ((processLine opts s raw).2))

theorem formatLinesFrom_length (opts : FormattingOptions) (ls : List (List Char)) :
    ∀ s : FormatterState, (formatLinesFrom opts s ls).length = ls.length := by
  induction ls with
  | nil => intro s; rfl
  | cons raw rest ih =>
    intro s
    simp only [formatLinesFrom, List.length_cons]
    rw [ih]

theorem formatLinesFrom_trim (opts : FormattingOptions) (ls : List (List Char)) :
    ∀ (s : FormatterState) (n : Nat),
      trim ((formatLinesFrom opts s ls).getD n []) = trim (ls.getD n []) := by
  induction ls with
  | nil => intro s n; rfl
  | cons raw rest ih =>
    intro s n
    cases n with
    | zero =>
      simp only [formatLinesFrom, List.getD_cons_zero]
      exact processLine_out_trim opts s raw
    | succ m =>
      simp only [formatLinesFrom, List.getD_cons_succ]
      exact ih ((processLine opts s raw).2) m

/-! ### `splitLines` / `joinLines` -/

theorem splitLines_ne_nil (t : List Char) : splitLines t ≠ [] := by
  induction t with
  | nil => simp [splitLines]
  | cons c cs ih =>
    by_cases h : c = '\n'
    · simp [splitLines, h]
    · simp only [splitLines, h, if_neg]
      cases hs : splitLines cs with
      | nil => simp
      | cons l ls => simp

theorem splitLines_no_newline (t : List Char) :
    ∀ l ∈ splitLines t, ('\n') ∉ l := by
  induction t with
  | nil =>
    intro l hl
    simp [splitLines] at hl
    simp [hl]
  | cons c cs ih =>
    intro l hl
    by_cases h : c = '\n'
    · simp only [splitLines, h, if_pos] at hl
      rcases List.mem_cons.mp hl with h1 | h1
      · simp [h1]
      · exact ih l h1
    · simp only [splitLines, h, if_neg] at hl
      cases hs : splitLines cs with
      | nil => exact absurd hs (splitLines_ne_nil cs)
      | cons a as =>
        rw [hs] at hl
        rcases List.mem_cons.mp hl with h1 | h1
        · subst h1
          intro hmem
          rcases List.mem_cons.mp hmem with h2 | h2
          · exact h h2.symm
          · exact ih a (by rw [hs]; simp) h2
        · exact ih l (by rw [hs]; simp [h1])

theorem splitLines_single {l : List Char} (h : ('\n') ∉ l) :
    splitLines l = [l] := by
  induction l with
  | nil => rfl
  | cons c cs ih =>
    have hc : ¬(c = '\n') := fun hcc => h (by simp [hcc])
    have hcs : ('\n') ∉ cs := fun hmem => h (by simp [hmem])
    simp [splitLines, hc, ih hcs]

theorem splitLines_append_newline {l : List Char} (r : List Char)
    (h : ('\n') ∉ l) :
    splitLines (l ++ '\n' :: r) = l :: splitLines r := by
  induction l with
  | nil => simp [splitLines]
  | cons c cs ih =>
    have hc : ¬(c = '\n') := fun hcc => h (by simp [hcc])
    have hcs : ('\n') ∉ cs := fun hmem => h (by simp [hmem])
    simp [splitLines, hc, ih hcs]

theorem splitLines_joinLines (ls : List (List Char)) (hne : ls ≠ [])
    (h : ∀ l ∈ ls, ('\n') ∉ l) :
    splitLines (joinLines ls) = ls := by
  induction ls with
  | nil => exact absurd rfl hne
  | cons a rest ih =>
    cases rest with
    | nil =>
      show splitLines (joinLines [a]) = [a]
      show splitLines a = [a]
      exact splitLines_single (h a (by simp))
    | cons b bs =>
      show splitLines (a ++ '\n' :: joinLines (b :: bs)) = a :: b :: bs
      rw [splitLines_append_newline _ (h a (by simp))]
      rw [ih (by simp) (fun l hl => h l (by simp [List.mem_cons.mp hl]))]

theorem formatLinesFrom_no_newline (opts : FormattingOptions)
    (ls : List (List Char)) :
    ∀ (s : FormatterState) (l : List Char), l ∈ formatLinesFrom opts s ls →
      (∀ l' ∈ ls, ('\n') ∉ l') → ('\n') ∉ l := by
  induction ls with
  | nil => intro s l hl _; simp [formatLinesFrom] at hl
  | cons raw rest ih =>
    intro s l hl hin
    simp only [formatLinesFrom, List.mem_cons] at hl
    rcases hl with hl | hl
    · subst hl
      intro hmem
      rcases hv : (processLineCore s raw).1 with _ | v
      · have : (processLine opts s raw).1 = [] := by
          simp [processLine, renderLine, hv]
        rw [this] at hmem
        simp at hmem
      · have : (processLine opts s raw).1 =
            createIndent v.toNat opts ++ trim raw := by
          simp [processLine, renderLine, hv]
        rw [this] at hmem
        rcases List.mem_append.mp hmem with h1 | h1
        · exact (createIndent_no_newline v.toNat opts _ h1) rfl
        · exact hin raw (by simp) (mem_trim h1)
    · exact ih ((processLine opts s raw).2) l hl
        (fun l' hl' => hin l' (by simp [hl']))

theorem format_splitLines (text : List Char) (opts : FormattingOptions) :
    splitLines (formatPureBasicCode text opts initialState) =
      formatLinesFrom opts initialState (splitLines text) := by
  have hnn : ∀ l ∈ formatLinesFrom opts initialState (splitLines text),
      ('\n') ∉ l :=
    fun l hl => formatLinesFrom_no_newline opts (splitLines text) initialState
      l hl (splitLines_no_newline text)
  have hne : formatLinesFrom opts initialState (splitLines text) ≠ [] := by
    intro h
    have hlen := formatLinesFrom_length opts (splitLines text) initialState
    rw [h] at hlen
    exact splitLines_ne_nil text (List.length_eq_zero.mp hlen.symm)
  unfold formatPureBasicCode
  exact splitLines_joinLines _ hne hnn

/-- C4: formatting is idempotent — formatting an already-formatted document
produces no further change, for every input text and every options value. -/
theorem c4_format_idempotent (text : List Char) (opts : FormattingOptions) :
    formatPureBasicCode (formatPureBasicCode text opts initialState) opts
        initialState =
      formatPureBasicCode text opts initialState := by
  conv_lhs => rw [formatPureBasicCode, format_splitLines text opts]
  rw [formatLinesFrom_idem]
  rfl

/-- C6: the formatter emits exactly one output line per input line, and every
output line has the same trimmed content as the corresponding input line —
only leading whitespace changes. -/
theorem c6_content_preservation (text : List Char) (opts : FormattingOptions) :
    (splitLines (formatPureBasicCode text opts initialState)).length =
        (splitLines text).length ∧
      ∀ n : Nat,
        trim ((splitLines (formatPureBasicCode text opts initialState)).getD n [])
          = trim ((splitLines text).getD n []) := by
  rw [format_splitLines text opts]
  exact ⟨formatLinesFrom_length opts (splitLines text) initialState,
    fun n => formatLinesFrom_trim opts (splitLines text) initialState n⟩

theorem chainStep_nonneg (s : FormatterState) (code : List Char)
    (inlineAny : Bool) (h1 : 0 ≤ s.indentLevel) (h2 : 0 ≤ s.selectBaseIndent) :
    0 ≤ (chainStep s code inlineAny).1 ∧
    0 ≤ (chainStep s code inlineAny).2.indentLevel ∧
    0 ≤ (chainStep s code inlineAny).2.selectBaseIndent := by
  rcases s with ⟨il, sel, sbi, ca⟩
  simp only [chainStep, mx0] at *
  split_ifs <;> simp_all <;> omega

theorem postStep_nonneg (code : List Char) (inlineIf inlineAny isMid : Bool)
    (li : Int) (s : FormatterState) (hli : 0 ≤ li) (h1 : 0 ≤ s.indentLevel)
    (h2 : 0 ≤ s.selectBaseIndent) :
    0 ≤ (postStep code inlineIf inlineAny isMid li s).indentLevel ∧
    0 ≤ (postStep code inlineIf inlineAny isMid li s).selectBaseIndent := by
  rcases s with ⟨il, sel, sbi, ca⟩
  simp only [postStep] at *
  split_ifs <;> simp_all <;> omega

theorem processCode_nonneg (s : FormatterState) (code : List Char)
    (h1 : 0 ≤ s.indentLevel) (h2 : 0 ≤ s.selectBaseIndent) :
    0 ≤ (processCode s code).1.getD 0 ∧
    0 ≤ (processCode s code).2.indentLevel ∧
    0 ≤ (processCode s code).2.selectBaseIndent := by
  obtain ⟨ha, hb, hc⟩ := chainStep_nonneg s code (hasInlineNetZero code) h1 h2
  simp only [processCode, Option.getD_some]
  refine ⟨le_max_left 0 _, ?_, ?_⟩
  · refine (postStep_nonneg _ _ _ _ _ _ ?_ ?_ ?_).1
    · split_ifs
      · exact le_max_left 0 _
      · exact ha
    · split_ifs
      · exact le_max_left 0 _
      · exact hb
    · split_ifs
      · exact hc
      · exact hc
  · refine (postStep_nonneg _ _ _ _ _ _ ?_ ?_ ?_).2
    · split_ifs
      · exact le_max_left 0 _
      · exact ha
    · split_ifs
      · exact le_max_left 0 _
      · exact hb
    · split_ifs
      · exact hc
      · exact hc

theorem core_nonneg (s : FormatterState) (raw : List Char)
    (h1 : 0 ≤ s.indentLevel) (h2 : 0 ≤ s.selectBaseIndent) :
    0 ≤ ((processLineCore s raw).1.getD 0) ∧
    0 ≤ (processLineCore s raw).2.indentLevel ∧
    0 ≤ (processLineCore s raw).2.selectBaseIndent := by
  by_cases h0 : trim raw = []
  · simp [processLineCore, h0]
    exact ⟨h1, h2⟩
  · by_cases hcm : (trim raw).head? = some ';'
    · simp only [processLineCore]
      rw [if_neg h0, if_pos hcm]
      refine ⟨?_, h1, h2⟩
      simp only [Option.getD_some, mx0]
      exact le_max_left 0 _
    · simp only [processLineCore]
      rw [if_neg h0, if_neg hcm]
      exact processCode_nonneg s (trim (stripStringsAndComments raw)) h1 h2

theorem stateAfter_nonneg (ls : List (List Char)) :
    ∀ s : FormatterState, 0 ≤ s.indentLevel → 0 ≤ s.selectBaseIndent →
      0 ≤ (stateAfter s ls).indentLevel ∧
        0 ≤ (stateAfter s ls).selectBaseIndent := by
  induction ls with
  | nil => intro s h1 h2; exact ⟨h1, h2⟩
  | cons raw rest ih =>
    intro s h1 h2
    have h := core_nonneg s raw h1 h2
    show 0 ≤ (stateAfter (processLineCore s raw).2 rest).indentLevel ∧ _
    exact ih _ h.2.1 h.2.2

/-- C5: for every input text, every intermediate formatter state has
non-negative `indentLevel` and `selectBaseIndent` (unbalanced closers clamp at
0 instead of underflowing), and every emitted line's indent level is ≥ 0. -/
theorem c5_nonneg_indent (text : List Char) (n : Nat) :
    0 ≤ (stateAfter initialState ((splitLines text).take n)).indentLevel ∧
    0 ≤ (stateAfter initialState ((splitLines text).take n)).selectBaseIndent ∧
    0 ≤ emitLevelAt (splitLines text) n := by
  have hinv := stateAfter_nonneg ((splitLines text).take n) initialState
    (by simp [initialState]) (by simp [initialState])
  refine ⟨hinv.1, hinv.2, ?_⟩
  unfold emitLevelAt
  exact (core_nonneg _ _ hinv.1 hinv.2).1

theorem kwHere_unique {k1 k2 L : List Char}
    (h1 : kwHere k1 L = true) (h2 : kwHere k2 L = true)
    (hw : ∀ c ∈ k2, isWordChar c = true) (hlen : k1.length ≤ k2.length) :
    k1 = k2 := by
  simp only [kwHere, Bool.and_eq_true, beq_iff_eq] at h1 h2
  obtain ⟨ht1, hb1⟩ := h1
  obtain ⟨ht2, hb2⟩ := h2
  have hl2 : k2.length ≤ L.length := by
    have hlen2 := congrArg List.length ht2
    rw [List.length_take] at hlen2
    omega
  rcases Nat.lt_or_ge k1.length k2.length with hlt | hge
  · exfalso
    have hL : L = k2 ++ L.drop k2.length := by
      conv_lhs => rw [← List.take_append_drop k2.length L]
      rw [ht2]
    have hdrop : L.drop k1.length = k2.drop k1.length ++ L.drop k2.length := by
      conv_lhs => rw [hL]
      rw [List.drop_append_of_le_length hlen]
    cases hk : k2.drop k1.length with
    | nil =>
      have hlk := congrArg List.length hk
      rw [List.length_drop] at hlk
      simp at hlk
      omega
    | cons c t =>
      have hcw : isWordChar c = true := hw c (by
        have hcm : c ∈ k2.drop k1.length := by rw [hk]; simp
        exact List.mem_of_mem_drop hcm)
      have hbf : boundaryAt L k1.length = false := by
        unfold boundaryAt
        rw [hdrop, hk]
        simp [hcw]
      rw [hbf] at hb1
      simp at hb1
  · have heq : k1.length = k2.length := Nat.le_antisymm hlen hge
    rw [← ht1, ← ht2, heq]

theorem startsKw_both {k1 k2 : String} {l : List Char}
    (h1 : startsKw k1 l = true) (h2 : startsKw k2 l = true)
    (hw1 : ∀ c ∈ k1.toList, isWordChar c = true)
    (hw2 : ∀ c ∈ k2.toList, isWordChar c = true) :
    k1.toList = k2.toList := by
  rcases Nat.le_total k1.toList.length k2.toList.length with h | h
  · exact kwHere_unique h1 h2 hw2 h
  · exact (kwHere_unique h2 h1 hw1 h).symm

/-- Two keyword families with disjoint word lists never match the same line. -/
theorem any_startsKw_disjoint (ks1 ks2 : List String) (l : List Char)
    (hw : ∀ k ∈ ks1 ++ ks2, ∀ c ∈ k.toList, isWordChar c = true)
    (hne : ∀ k1 ∈ ks1, ∀ k2 ∈ ks2, k1.toList ≠ k2.toList)
    (h : ks1.any (fun k => startsKw k l) = true) :
    ks2.any (fun k => startsKw k l) = false := by
  rw [List.any_eq_true] at h
  obtain ⟨k1, hk1, hs1⟩ := h
  by_contra hcon
  rw [Bool.not_eq_false, List.any_eq_true] at hcon
  obtain ⟨k2, hk2, hs2⟩ := hcon
  exact hne k1 hk1 k2 hk2 (startsKw_both hs1 hs2
    (hw k1 (List.mem_append.mpr (Or.inl hk1)))
    (hw k2 (List.mem_append.mpr (Or.inr hk2))))

/-! ### Keyword-category exclusivity and claim helper lemmas -/

theorem mid_not_endselect {l : List Char} (h : isMiddle l = true) :
    isEndSelect l = false := by
  have hx := any_startsKw_disjoint middleKws ["endselect"] l (by decide) (by decide) h
  simpa [isEndSelect] using hx

theorem mid_not_select {l : List Char} (h : isMiddle l = true) :
    isSelect l = false := by
  have hx := any_startsKw_disjoint middleKws ["select"] l (by decide) (by decide) h
  simpa [isSelect] using hx

theorem mid_not_case {l : List Char} (h : isMiddle l = true) :
    isCase l = false :=
  any_startsKw_disjoint middleKws caseKws l (by decide) (by decide) h

theorem mid_not_closing {l : List Char} (h : isMiddle l = true) :
    isClosing l = false :=
  any_startsKw_disjoint middleKws closingKws l (by decide) (by decide) h

theorem mid_not_opening {l : List Char} (h : isMiddle l = true) :
    isOpening l = false :=
  any_startsKw_disjoint middleKws openingKws l (by decide) (by decide) h

theorem core_eq_processCode (s : FormatterState) (raw : List Char)
    (h : trim (stripStringsAndComments raw) ≠ []) :
    processLineCore s raw =
      processCode s (trim (stripStringsAndComments raw)) := by
  have h0 : trim raw ≠ [] := fun hh => h (code_blank hh)
  have hcm : (trim raw).head? ≠ some ';' := fun hh => h (code_comment hh)
  simp [processLineCore, h0, hcm]


theorem case_not_endselect {l : List Char} (h : isCase l = true) :
    isEndSelect l = false := by
  have hx := any_startsKw_disjoint caseKws ["endselect"] l (by decide) (by decide) h
  simpa [isEndSelect] using hx

theorem case_not_select {l : List Char} (h : isCase l = true) :
    isSelect l = false := by
  have hx := any_startsKw_disjoint caseKws ["select"] l (by decide) (by decide) h
  simpa [isSelect] using hx

theorem case_not_middle {l : List Char} (h : isCase l = true) :
    isMiddle l = false :=
  any_startsKw_disjoint caseKws middleKws l (by decide) (by decide) h

theorem case_not_if {l : List Char} (h : isCase l = true) :
    startsKw ("if") l = false := by
  have hx := any_startsKw_disjoint caseKws ["if"] l (by decide) (by decide) h
  simpa using hx

theorem endsel_not_select {l : List Char} (h : isEndSelect l = true) :
    isSelect l = false := by
  have hx := any_startsKw_disjoint ["endselect"] ["select"] l (by decide) (by decide)
    (by simpa [isEndSelect] using h)
  simpa [isSelect] using hx

theorem endsel_not_case {l : List Char} (h : isEndSelect l = true) :
    isCase l = false :=
  any_startsKw_disjoint ["endselect"] caseKws l (by decide) (by decide)
    (by simpa [isEndSelect] using h)

theorem endsel_not_middle {l : List Char} (h : isEndSelect l = true) :
    isMiddle l = false :=
  any_startsKw_disjoint ["endselect"] middleKws l (by decide) (by decide)
    (by simpa [isEndSelect] using h)

theorem endsel_not_opening {l : List Char} (h : isEndSelect l = true) :
    isOpening l = false :=
  any_startsKw_disjoint ["endselect"] openingKws l (by decide) (by decide)
    (by simpa [isEndSelect] using h)

theorem clos_not_endselect {l : List Char} (h : isClosing l = true) :
    isEndSelect l = false := by
  have hx := any_startsKw_disjoint closingKws ["endselect"] l (by decide) (by decide) h
  simpa [isEndSelect] using hx

theorem clos_not_select {l : List Char} (h : isClosing l = true) :
    isSelect l = false := by
  have hx := any_startsKw_disjoint closingKws ["select"] l (by decide) (by decide) h
  simpa [isSelect] using hx

theorem clos_not_case {l : List Char} (h : isClosing l = true) :
    isCase l = false :=
  any_startsKw_disjoint closingKws caseKws l (by decide) (by decide) h

theorem clos_not_middle {l : List Char} (h : isClosing l = true) :
    isMiddle l = false :=
  any_startsKw_disjoint closingKws middleKws l (by decide) (by decide) h

theorem clos_not_opening {l : List Char} (h : isClosing l = true) :
    isOpening l = false :=
  any_startsKw_disjoint closingKws openingKws l (by decide) (by decide) h

/-! ### Claim theorems -/

/-- C1: range/full equivalence fails on the code.  `macroDoc` is already
formatted (a full format is the identity on it), yet range-formatting line 1
does not reproduce the corresponding span of the full format: the state
reconstructor does not know the `Macro` keyword, so the body line loses its
indentation. -/
theorem c1_range_full_divergence :
    formatLinesFrom DEFAULT_OPTIONS initialState macroDoc = macroDoc ∧
    formatRangeLines macroDoc 1 1 DEFAULT_OPTIONS ≠
      ((formatLinesFrom DEFAULT_OPTIONS initialState macroDoc).drop 1).take 1 := by
  decide

/-- C2: the state reconstructor is not the formatter's transition function.
After the single line `Macro m` the formatter's state has `indentLevel = 1`
(`Macro` is in its opening-keyword list) while `computeInitialFormatterState`
returns `indentLevel = 0` (its duplicated list omits `Macro`). -/
theorem c2_reconstructor_divergence :
    computeInitialFormatterState [toL ("Macro m")] ≠
      stateAfter initialState [toL ("Macro m")] ∧
    (computeInitialFormatterState [toL ("Macro m")]).indentLevel = 0 ∧
    (stateAfter initialState [toL ("Macro m")]).indentLevel = 1 := by
  decide

/-- C3 counterexample: a block-transfer line is not net-zero at
`indentLevel = 0` — processing `Else` from the initial state leaves
`indentLevel = 1`, not the pre-transfer value `0`. -/
theorem c3_transfer_counterexample :
    (processLineCore initialState (toL ("Else"))).2.indentLevel ≠
      initialState.indentLevel := by
  decide

/-- C3 (amended): a block-transfer line processed from a state with
`indentLevel ≥ 1` — and, when inside a `Select` that has not yet seen a
`Case`, with `selectBaseIndent + 1 ≤ indentLevel` — is emitted at
`indentLevel − 1` and leaves the whole state unchanged (net-zero). -/
theorem c3_transfer_net_zero_amended (opts : FormattingOptions)
    (s : FormatterState) (raw : List Char)
    (hmid : isMiddle (trim (stripStringsAndComments raw)) = true)
    (hinl : hasInlineNetZero (trim (stripStringsAndComments raw)) = false)
    (hpos : 1 ≤ s.indentLevel)
    (hsel : s.inSelect = true → s.caseActive = false →
      s.selectBaseIndent + 1 ≤ s.indentLevel) :
    processLine opts s raw =
      (createIndent (s.indentLevel - 1).toNat opts ++ trim raw, s) := by
  have hcode_ne : trim (stripStringsAndComments raw) ≠ [] := by
    intro hh
    rw [hh] at hmid
    exact absurd hmid (by decide)
  have hcore := core_eq_processCode s raw hcode_ne
  have hm1 := mid_not_endselect hmid
  have hm2 := mid_not_select hmid
  have hm3 := mid_not_case hmid
  have hm4 := mid_not_closing hmid
  have hm5 := mid_not_opening hmid
  show (renderLine opts (processLineCore s raw).1 raw, (processLineCore s raw).2) = _
  rw [hcore]
  rcases s with ⟨il, sel, sbi, ca⟩
  dsimp only at hpos hsel ⊢
  simp only [renderLine]
  simp [processCode, chainStep, postStep, hinl, hmid, hm1, hm2, hm3, hm4, hm5, mx0]
  constructor
  · congr 1
    omega
  · split_ifs with h
    · have hs := hsel h.1 h.2
      simp only [FormatterState.mk.injEq, and_true, true_and, and_self]
      omega
    · simp only [FormatterState.mk.injEq, and_true, true_and, and_self]
      omega

/-- C3 witness: the amended theorem applied at `indentLevel = 2` and the line
`Else`. -/
theorem c3_transfer_net_zero_witness :
    isMiddle (trim (stripStringsAndComments (toL ("Else")))) = true ∧
    hasInlineNetZero (trim (stripStringsAndComments (toL ("Else")))) = false ∧
    (1 : Int) ≤ (⟨2, false, 0, false⟩ : FormatterState).indentLevel ∧
    processLine DEFAULT_OPTIONS ⟨2, false, 0, false⟩ (toL ("Else")) =
      (createIndent ((⟨2, false, 0, false⟩ : FormatterState).indentLevel - 1).toNat
        DEFAULT_OPTIONS ++ trim (toL ("Else")), ⟨2, false, 0, false⟩) :=
  ⟨by decide, by decide, by decide,
    c3_transfer_net_zero_amended DEFAULT_OPTIONS ⟨2, false, 0, false⟩
      (toL ("Else")) (by decide) (by decide) (by decide) (by decide)⟩

/-- C7: a line whose sanitized text contains a matched opener/closer pair of
the same family (inline net-zero) is emitted at the current `indentLevel` and
changes no state field at all. -/
theorem c7_inline_net_zero_frame (opts : FormattingOptions)
    (s : FormatterState) (raw : List Char)
    (hinline : hasInlineNetZero (trim (stripStringsAndComments raw)) = true)
    (hil : 0 ≤ s.indentLevel) :
    processLine opts s raw =
      (createIndent s.indentLevel.toNat opts ++ trim raw, s) := by
  have hcode_ne : trim (stripStringsAndComments raw) ≠ [] := by
    intro hh
    rw [hh] at hinline
    exact absurd hinline (by decide)
  have hcore := core_eq_processCode s raw hcode_ne
  show (renderLine opts (processLineCore s raw).1 raw, (processLineCore s raw).2) = _
  rw [hcore]
  rcases s with ⟨il, sel, sbi, ca⟩
  dsimp only at hil ⊢
  simp only [renderLine]
  simp [processCode, chainStep, postStep, hinline, mx0]
  congr 2
  omega

/-- C7 witness: the single-line `If a : b() : EndIf` at the initial state. -/
theorem c7_inline_net_zero_witness :
    hasInlineNetZero
        (trim (stripStringsAndComments (toL ("If a : b() : EndIf")))) = true ∧
    (0 : Int) ≤ initialState.indentLevel ∧
    processLine DEFAULT_OPTIONS initialState (toL ("If a : b() : EndIf")) =
      (createIndent initialState.indentLevel.toNat DEFAULT_OPTIONS ++
        trim (toL ("If a : b() : EndIf")), initialState) :=
  ⟨by decide, by decide,
    c7_inline_net_zero_frame DEFAULT_OPTIONS initialState
      (toL ("If a : b() : EndIf")) (by decide) (by decide)⟩

/-- C8: a case label inside an open `Select` is emitted at
`selectBaseIndent + 1`, and afterwards `caseActive` is true and `indentLevel`
equals `selectBaseIndent + 2`; moreover the Scenario C document renders at
levels 0/1/2/1/2/0. -/
theorem c8_case_label_levels (opts : FormattingOptions) (s : FormatterState)
    (raw : List Char)
    (hsel : s.inSelect = true)
    (hcase : isCase (trim (stripStringsAndComments raw)) = true)
    (hinl : hasInlineNetZero (trim (stripStringsAndComments raw)) = false)
    (hsb : 0 ≤ s.selectBaseIndent) :
    processLine opts s raw =
      (createIndent (s.selectBaseIndent + 1).toNat opts ++ trim raw,
       ⟨s.selectBaseIndent + 2, true, s.selectBaseIndent, true⟩) ∧
    formatLinesFrom DEFAULT_OPTIONS initialState scenarioC = scenarioCOut := by
  refine ⟨?_, by decide⟩
  have hcode_ne : trim (stripStringsAndComments raw) ≠ [] := by
    intro hh
    rw [hh] at hcase
    exact absurd hcase (by decide)
  have hcore := core_eq_processCode s raw hcode_ne
  have hc1 := case_not_endselect hcase
  have hc2 := case_not_select hcase
  have hc3 := case_not_middle hcase
  have hc4 := case_not_if hcase
  show (renderLine opts (processLineCore s raw).1 raw, (processLineCore s raw).2) = _
  rw [hcore]
  rcases s with ⟨il, sel, sbi, ca⟩
  dsimp only at hsel hsb ⊢
  subst hsel
  simp only [renderLine]
  simp [processCode, chainStep, postStep, hcase, hinl, hc1, hc2, hc3, hc4, mx0]
  congr 2
  omega

/-- C8 witness: the line `Case 1` inside an open `Select` with base indent 0
and `indentLevel = 5`. -/
theorem c8_case_label_witness :
    (⟨5, true, 0, false⟩ : FormatterState).inSelect = true ∧
    isCase (trim (stripStringsAndComments (toL ("Case 1")))) = true ∧
    hasInlineNetZero (trim (stripStringsAndComments (toL ("Case 1")))) = false ∧
    (0 : Int) ≤ (⟨5, true, 0, false⟩ : FormatterState).selectBaseIndent ∧
    processLine DEFAULT_OPTIONS ⟨5, true, 0, false⟩ (toL ("Case 1")) =
      (createIndent ((⟨5, true, 0, false⟩ : FormatterState).selectBaseIndent
          + 1).toNat DEFAULT_OPTIONS ++ trim (toL ("Case 1")),
       ⟨(⟨5, true, 0, false⟩ : FormatterState).selectBaseIndent + 2, true,
        (⟨5, true, 0, false⟩ : FormatterState).selectBaseIndent, true⟩) :=
  ⟨by decide, by decide, by decide, by decide,
    (c8_case_label_levels DEFAULT_OPTIONS ⟨5, true, 0, false⟩ (toL ("Case 1"))
      (by decide) (by decide) (by decide) (by decide)).1⟩

/-- C9 counterexample: a stray `EndIf` directly after `Select x` is emitted at
`max(0, indentLevel − 1) = 0`, but the resulting `indentLevel` is 1, not the
emitted value — the forward-pinning rule re-raises it. -/
theorem c9_orphan_counterexample :
    (stateAfter initialState [toL ("Select x"), toL ("EndIf")]).indentLevel ≠
      mx0 ((stateAfter initialState [toL ("Select x")]).indentLevel - 1) := by
  decide

/-- C9 (amended): an orphaned `EndSelect` (no open branch), and a stray
block-closer processed outside a `Select`-before-first-`Case` situation, are
emitted at `max(0, indentLevel − 1)` and set `indentLevel` to that value,
leaving every other state field unchanged. -/
theorem c9_orphan_closer_amended (opts : FormattingOptions)
    (s : FormatterState) (raw : List Char)
    (hinl : hasInlineNetZero (trim (stripStringsAndComments raw)) = false)
    (h : (isEndSelect (trim (stripStringsAndComments raw)) = true ∧
            s.inSelect = false) ∨
         (isClosing (trim (stripStringsAndComments raw)) = true ∧
            (s.inSelect = false ∨ s.caseActive = true))) :
    processLine opts s raw =
      (createIndent (mx0 (s.indentLevel - 1)).toNat opts ++ trim raw,
       { s with indentLevel := mx0 (s.indentLevel - 1) }) := by
  have hcode_ne : trim (stripStringsAndComments raw) ≠ [] := by
    intro hh
    rcases h with ⟨h1, _⟩ | ⟨h1, _⟩ <;> rw [hh] at h1 <;>
      exact absurd h1 (by decide)
  have hcore := core_eq_processCode s raw hcode_ne
  show (renderLine opts (processLineCore s raw).1 raw, (processLineCore s raw).2) = _
  rw [hcore]
  rcases h with ⟨h1, h2⟩ | ⟨h1, h2⟩
  · have he1 := endsel_not_select h1
    have he2 := endsel_not_case h1
    have he3 := endsel_not_middle h1
    have he4 := endsel_not_opening h1
    rcases s with ⟨il, sel, sbi, ca⟩
    dsimp only at h2 ⊢
    subst h2
    simp only [renderLine]
    simp [processCode, chainStep, postStep, h1, hinl, he1, he2, he3, he4, mx0]
  · have hl1 := clos_not_endselect h1
    have hl2 := clos_not_select h1
    have hl3 := clos_not_case h1
    have hl4 := clos_not_middle h1
    have hl5 := clos_not_opening h1
    rcases s with ⟨il, sel, sbi, ca⟩
    dsimp only at h2 ⊢
    simp only [renderLine]
    simp [processCode, chainStep, postStep, h1, hinl, hl1, hl2, hl3, hl4, hl5, mx0]
    rcases h2 with h2 | h2 <;> subst h2 <;> simp

/-- C9 witness: a stray `EndIf` inside a `Select` whose first `Case` has been
seen (`caseActive = true`), at `indentLevel = 3`. -/
theorem c9_orphan_closer_witness :
    hasInlineNetZero (trim (stripStringsAndComments (toL ("EndIf")))) = false ∧
    isClosing (trim (stripStringsAndComments (toL ("EndIf")))) = true ∧
    processLine DEFAULT_OPTIONS ⟨3, true, 1, true⟩ (toL ("EndIf")) =
      (createIndent (mx0 ((⟨3, true, 1, true⟩ : FormatterState).indentLevel
          - 1)).toNat DEFAULT_OPTIONS ++ trim (toL ("EndIf")),
       { (⟨3, true, 1, true⟩ : FormatterState) with
          indentLevel := mx0 ((⟨3, true, 1, true⟩ :
            FormatterState).indentLevel - 1) }) :=
  ⟨by decide, by decide,
    c9_orphan_closer_amended DEFAULT_OPTIONS ⟨3, true, 1, true⟩ (toL ("EndIf"))
      (by decide) (Or.inr ⟨by decide, Or.inr (by decide)⟩)⟩

/-- C10: the sanitizer is total and (i) cuts the line at the first `;` that
occurs outside any open string, (ii) never treats a `;` inside an open string
as a comment start, and (iii) drops the remainder of the line after an
unterminated string. -/
theorem c10_sanitizer_props (p r : List Char) :
    (stripSt p false false = some (false, false) →
      stripStringsAndComments (p ++ ';' :: r) = stripStringsAndComments p) ∧
    (∀ d s : Bool, stripSt p false false = some (d, s) → (d || s) = true →
      stripStringsAndComments (p ++ ';' :: r) =
        stripStringsAndComments (p ++ r)) ∧
    (∀ d s : Bool, stripSt p false false = some (d, s) → (d || s) = true →
      (∀ c ∈ r, c ≠ '"' ∧ c ≠ sqChar) →
      stripStringsAndComments (p ++ r) = stripStringsAndComments p) := by
  refine ⟨?_, ?_, ?_⟩
  · intro h
    unfold stripStringsAndComments
    rw [stripAux_append p (';' :: r) false false, h]
    show stripAux p false false ++ stripAux (';' :: r) false false = _
    simp [stripAux]
  · intro d s h hds
    unfold stripStringsAndComments
    rw [stripAux_append p (';' :: r) false false,
      stripAux_append p r false false, h]
    show stripAux p false false ++ stripAux (';' :: r) d s =
      stripAux p false false ++ stripAux r d s
    congr 1
    have e1 : ¬((';' : Char) = '"') := by decide
    have e2 : ¬((';' : Char) = sqChar) := by decide
    cases d with
    | true => simp [stripAux, e1, e2]
    | false =>
      have hs : s = true := by simpa using hds
      subst hs
      simp [stripAux, e1, e2]
  · intro d s h hds hq
    unfold stripStringsAndComments
    rw [stripAux_append p r false false, h]
    show stripAux p false false ++ stripAux r d s = stripAux p false false
    rw [stripAux_in_string hq d s hds, List.append_nil]

/-- C10 witness: the three sanitizer properties applied to concrete lines
(`ab;cd`, a line with an open double quote before `;`, and an unterminated
string followed by plain text). -/
theorem c10_sanitizer_witness :
    stripSt (toL ("ab")) false false = some (false, false) ∧
    stripStringsAndComments (toL ("ab") ++ ';' :: toL ("cd")) =
      stripStringsAndComments (toL ("ab")) ∧
    stripSt (toL ("a\"b")) false false = some (true, false) ∧
    stripStringsAndComments (toL ("a\"b") ++ ';' :: toL ("cd")) =
      stripStringsAndComments (toL ("a\"b") ++ toL ("cd")) ∧
    stripStringsAndComments (toL ("a\"b") ++ toL ("xy")) =
      stripStringsAndComments (toL ("a\"b")) :=
  ⟨by decide,
   (c10_sanitizer_props (toL ("ab")) (toL ("cd"))).1 (by decide),
   by decide,
   (c10_sanitizer_props (toL ("a\"b")) (toL ("cd"))).2.1 true false (by decide)
     (by decide),
   (c10_sanitizer_props (toL ("a\"b")) (toL ("xy"))).2.2 true false (by decide)
     (by decide) (by decide)⟩
